import Mathlib

/-!
Verification of the annotation-session core of `wavescribe` (`src/main.py`,
class `AudioAnnotator`).

The session state of the running application consists of the pandas table
`c_rating_df`, the cursor `c_word_index`, the pending edit buffer
(`word_text_edit` contents, `c_start_time`, `c_end_time`, `c_changed_times`),
the rater name, and the on-disk output CSV.  We embed it as the `Session`
structure below.  Times are modelled as rationals; strings as Lean strings
(lower/trim are defined structurally over the character list so that they
mirror Python's `str.lower`/`str.strip` on the ASCII data the tool handles
and compute by kernel reduction).

Each operation of the Python class is translated on its loaded-session
branch: the `self.c_rating_df is None` early-return guards, the Qt plotting
and the confirmation dialog of `delete_word` are presentation-layer code
outside the state the claims quantify over.  Dialog boxes / message boxes
that the operations pop are modelled by an `Option Report` component of the
result.
-/

/-- Mirrors Python `str.lower` character-wise on the ASCII range
(`main.py` line 826 applies `.lower()`). -/
def charLower (c : Char) : Char := c.toLower

/-- Strip leading and trailing whitespace from a character list
(Python `str.strip`). -/
def trimChars (l : List Char) : List Char :=
  ((l.dropWhile Char.isWhitespace).reverse.dropWhile Char.isWhitespace).reverse

/-- `AudioAnnotator.normalize_word` (main.py lines 825-826):
`word.lower().strip()`. -/
def normalize_word (w : String) : String :=
  String.mk (trimChars (w.data.map charLower))

/-- Python `round(x, 2)` on the rational time model: round to two decimal
places.  (Python rounds ties to even on binary floats; no claim exercises a
tie, so Mathlib's `round` is used.) -/
def round2 (q : Rat) : Rat := ((q * 100 + 1/2).floor : Int) / 100

/-- One row of the output table (`needed_output_columns`,
main.py lines 160-167). -/
structure WordRecord where
  transcription : String
  word_clean : String
  start : Rat
  «end» : Rat
  rater : Option String
  changed : Bool
deriving DecidableEq, Inhabited

/-- `df.loc[i, :]` — row lookup by position (rows are labelled
positionally after every `reset_index(drop=True)`). -/
def getRec (t : List WordRecord) (i : Nat) : WordRecord :=
  t.getD i default

/-- The loaded-session state of `AudioAnnotator`:
`c_rating_df`, `c_word_index`, the pending edit buffer
(`word_text_edit` text, `c_start_time`, `c_end_time`, `c_changed_times`),
`rater_name`, and the content of the output CSV (`persisted`). -/
structure Session where
  table : List WordRecord
  cursor : Nat
  pendingText : String
  pendingStart : Rat
  pendingEnd : Rat
  timesChanged : Bool
  raterName : String
  persisted : List WordRecord
deriving DecidableEq, Inhabited

/-- Messages the operations report through dialog boxes.
`cannotDeleteLastRecord` is the failure the spec prescribes for
deleting from a one-record table; it is included so the corresponding
claim is statable. -/
inductive Report where
  | dataSaved
  | noPreviousWord
  | emptyTable
  | cannotDeleteLastRecord
deriving DecidableEq

/-- `AudioAnnotator.save_rating_df` (main.py lines 456-469): writes
`c_rating_df` to the subject's output CSV. -/
def save_rating_df (s : Session) : Session :=
  { s with persisted := s.table }

/-- The state-relevant part of `AudioAnnotator.show_current_word`
(main.py lines 471-620): on an empty table it reports
"Empty pre_annotated file" and returns; otherwise it reloads the pending
edit buffer (text field, `c_start_time`, `c_end_time`) from the record at
the cursor.  Plotting and button wiring carry no session state. -/
def show_current_word (s : Session) : Session × Option Report :=
  if s.table.length = 0 then (s, some Report.emptyTable)
  else
    let r := getRec s.table s.cursor
    ({ s with pendingText := r.transcription
              pendingStart := r.start
              pendingEnd := r.«end» }, none)

/-- `AudioAnnotator.save_rating` (main.py lines 828-861): normalize the
stored and the pending transcription, stamp `rater` unconditionally, and
if the normalized text differs or the boundary-drag flag is set, write the
normalized text and the rounded pending times into the row, set `changed`,
and clear the flag; in every case write the table out. -/
def save_rating (s : Session) : Session :=
  let previous_word := normalize_word (getRec s.table s.cursor).transcription
  let current_word := normalize_word s.pendingText
  let df1 := s.table.set s.cursor
    { getRec s.table s.cursor with rater := some s.raterName }
  if previous_word ≠ current_word ∨ s.timesChanged = true then
    let df2 := df1.set s.cursor
      { getRec df1 s.cursor with
          transcription := current_word
          start := round2 s.pendingStart
          «end» := round2 s.pendingEnd
          changed := true }
    save_rating_df { s with table := df2, timesChanged := false }
  else
    save_rating_df { s with table := df1 }

/-- `AudioAnnotator.next_word` (main.py lines 863-883): save the rating,
then either report "Data saved!" on the last record or advance the cursor
and reload the pending buffer. -/
def next_word (s : Session) : Session × Option Report :=
  let s1 := save_rating s
  if s1.cursor = s1.table.length - 1 then (s1, some Report.dataSaved)
  else show_current_word { s1 with cursor := s1.cursor + 1 }

/-- `AudioAnnotator.prev_word` (main.py lines 885-895): save the rating,
then either report "No previous word" at cursor 0 or step back and reload
the pending buffer. -/
def prev_word (s : Session) : Session × Option Report :=
  let s1 := save_rating s
  if s1.cursor = 0 then (s1, some Report.noPreviousWord)
  else show_current_word { s1 with cursor := s1.cursor - 1 }

/-- `AudioAnnotator.reset_word` (main.py lines 897-900): clear
`c_changed_times` and reload the pending buffer from the stored record. -/
def reset_word (s : Session) : Session × Option Report :=
  show_current_word { s with timesChanged := false }

/-- `AudioAnnotator.on_start_line_moved` (main.py lines 644-655): a drag
of the start line to a position at or beyond the current end time snaps
back (no state change); otherwise it updates the pending start and sets
`c_changed_times`. -/
def on_start_line_moved (newStart : Rat) (s : Session) : Session :=
  if newStart ≥ s.pendingEnd then s
  else { s with pendingStart := newStart, timesChanged := true }

/-- `AudioAnnotator.on_end_line_moved` (main.py lines 657-668): symmetric
to `on_start_line_moved`. -/
def on_end_line_moved (newEnd : Rat) (s : Session) : Session :=
  if newEnd ≤ s.pendingStart then s
  else { s with pendingEnd := newEnd, timesChanged := true }

/-- `AudioAnnotator.split_word` (main.py lines 756-793): duplicate the row
at the cursor (`first_df`/`new_row_df`/`second_df` concatenation), set the
first copy's end to `(c_start_time + c_end_time)/2 - 0.1` and the second
copy's start to the midpoint `+ 0.1`, append the split labels to the two
transcriptions, save the table, and redisplay. -/
def split_word (s : Session) : Session × Option Report :=
  let first_df := s.table.take (s.cursor + 1)
  let second_df := s.table.drop (s.cursor + 1)
  let new_row_df := [getRec s.table s.cursor]
  let df0 := first_df ++ new_row_df ++ second_df
  let mid := (s.pendingStart + s.pendingEnd) / 2
  let df1 := df0.set s.cursor { getRec df0 s.cursor with «end» := mid - 1/10 }
  let df2 := df1.set (s.cursor + 1)
    { getRec df1 (s.cursor + 1) with start := mid + 1/10 }
  let df3 := df2.set s.cursor
    { getRec df2 s.cursor with
        transcription := (getRec df2 s.cursor).transcription ++ " (split 1)" }
  let df4 := df3.set (s.cursor + 1)
    { getRec df3 (s.cursor + 1) with
        transcription :=
          (getRec df3 (s.cursor + 1)).transcription ++ " (split 2)" }
  show_current_word (save_rating_df { s with table := df4 })

/-- `AudioAnnotator.delete_word` (main.py lines 795-823), after the user
confirms the dialog: drop the row at the cursor, save, decrement the
cursor when it fell off the end, and redisplay.  There is no
last-record guard in the code (the delete button is merely disabled for
one-record tables at line 617). -/
def delete_word (s : Session) : Session × Option Report :=
  let df := s.table.eraseIdx s.cursor
  let s1 := save_rating_df { s with table := df }
  let s2 := if s1.cursor ≥ df.length ∧ 0 < s1.cursor then
      { s1 with cursor := s1.cursor - 1 }
    else s1
  show_current_word s2

/-- `AudioAnnotator.on_context_item_clicked` (main.py lines 622-642) with a
successfully parsed item index: save the rating, then jump when the index
is in range (out-of-range indices are silently ignored). -/
def on_context_item_clicked (i : Nat) (s : Session) : Session × Option Report :=
  let s1 := save_rating s
  if i < s1.table.length then show_current_word { s1 with cursor := i }
  else (s1, none)

/-- One row of a pre-annotated input CSV.  `rater` and `word_clean` hold
the cell values when the corresponding column exists (see `RawTable`). -/
structure RawRow where
  transcription : String
  start : Rat
  «end» : Rat
  rater : Option String
  word_clean : Option String
deriving DecidableEq, Inhabited

/-- A pre-annotated input CSV: which columns are present, and the rows. -/
structure RawTable where
  hasTranscription : Bool
  hasStart : Bool
  hasEnd : Bool
  hasRater : Bool
  hasWordClean : Bool
  rows : List RawRow
deriving DecidableEq

/-- Load failure: a required column is absent (main.py lines 931-938). -/
inductive LoadError where
  | missingColumn (column : String)
deriving DecidableEq

/-- Column derivation applied to each pre-annotated row
(main.py lines 940-947): `changed = False`, `rater = None` when the
column is absent, `word_clean = transcription.lower().strip()` when the
column is absent. -/
def derive_output_row (pre : RawTable) (r : RawRow) : WordRecord :=
  { transcription := r.transcription
    word_clean :=
      if pre.hasWordClean then r.word_clean.getD "" else
        normalize_word r.transcription
    start := r.start
    «end» := r.«end»
    rater := if pre.hasRater then r.rater else none
    changed := false }

/-- The table-resolution portion of `AudioAnnotator.load_audio_file`
(main.py lines 922-967): when the subject's output CSV already exists it
is loaded as-is; otherwise the pre-annotated CSV is loaded, the columns
`transcription`, `start`, `end` are checked in that order, the derived
columns are added, and the result is written as the initial output and
loaded.  Returns the loaded table together with what was written
(`none` when no initial output was created). -/
def resolveInitialTable (prior : Option (List WordRecord)) (pre : RawTable) :
    Except LoadError (List WordRecord × Option (List WordRecord)) :=
  match prior with
  | some t => Except.ok (t, none)
  | none =>
    if pre.hasTranscription = false then
      Except.error (LoadError.missingColumn "transcription")
    else if pre.hasStart = false then
      Except.error (LoadError.missingColumn "start")
    else if pre.hasEnd = false then
      Except.error (LoadError.missingColumn "end")
    else
      let out := pre.rows.map (derive_output_row pre)
      Except.ok (out, some out)

/-! ## Row-access helper lemmas -/

theorem getRec_set_self (t : List WordRecord) (i : Nat) (r : WordRecord)
    (h : i < t.length) : getRec (t.set i r) i = r := by
  simp [getRec, List.getD_eq_getElem?_getD, List.getElem?_set, h]

theorem getRec_set_ne (t : List WordRecord) {i j : Nat} (r : WordRecord)
    (h : i ≠ j) : getRec (t.set i r) j = getRec t j := by
  simp [getRec, List.getD_eq_getElem?_getD, List.getElem?_set, h]

theorem set_getRec_self (t : List WordRecord) (i : Nat) :
    t.set i (getRec t i) = t := by
  apply List.ext_getElem?
  intro j
  by_cases h : i = j
  · subst h
    by_cases hl : i < t.length
    · simp [List.getElem?_set, getRec, List.getD_eq_getElem?_getD,
        List.getElem?_eq_getElem hl, hl]
    · simp [List.getElem?_set, hl, Nat.le_of_not_lt hl]
  · simp [List.getElem?_set, h]

/-! ## Characterization of `save_rating` -/

/-- The record written by the change branch of `save_rating`. -/
def savedRec (s : Session) : WordRecord :=
  { getRec s.table s.cursor with
      rater := some s.raterName
      transcription := normalize_word s.pendingText
      start := round2 s.pendingStart
      «end» := round2 s.pendingEnd
      changed := true }

/-- The record written by the no-change branch of `save_rating`. -/
def stampedRec (s : Session) : WordRecord :=
  { getRec s.table s.cursor with rater := some s.raterName }

theorem save_rating_of_changed (s : Session) (hc : s.cursor < s.table.length)
    (h : normalize_word (getRec s.table s.cursor).transcription ≠
          normalize_word s.pendingText ∨ s.timesChanged = true) :
    save_rating s =
      { s with table := s.table.set s.cursor (savedRec s)
               timesChanged := false
               persisted := s.table.set s.cursor (savedRec s) } := by
  unfold save_rating save_rating_df
  rw [if_pos h]
  have h1 : (s.table.length : Nat) = (s.table.set s.cursor
      { getRec s.table s.cursor with rater := some s.raterName }).length := by
    simp
  rw [getRec_set_self _ _ _ (h1 ▸ hc), List.set_set]
  rfl

theorem save_rating_of_unchanged (s : Session)
    (h : normalize_word (getRec s.table s.cursor).transcription =
          normalize_word s.pendingText) (h2 : s.timesChanged = false) :
    save_rating s =
      { s with table := s.table.set s.cursor (stampedRec s)
               persisted := s.table.set s.cursor (stampedRec s) } := by
  unfold save_rating save_rating_df
  rw [if_neg]
  · rfl
  · simp [h, h2]

theorem save_rating_table_set (s : Session) :
    ∃ r, (save_rating s).table = s.table.set s.cursor r ∧
      (save_rating s).persisted = s.table.set s.cursor r := by
  simp only [save_rating, save_rating_df]
  split
  · exact ⟨_, List.set_set _ _ _ _, List.set_set _ _ _ _⟩
  · exact ⟨_, rfl, rfl⟩

theorem save_rating_cursor (s : Session) :
    (save_rating s).cursor = s.cursor := by
  simp only [save_rating, save_rating_df]
  split <;> rfl

theorem save_rating_length (s : Session) :
    (save_rating s).table.length = s.table.length := by
  obtain ⟨r, h, -⟩ := save_rating_table_set s
  simp [h]

theorem save_rating_pendingText (s : Session) :
    (save_rating s).pendingText = s.pendingText := by
  simp only [save_rating, save_rating_df]
  split <;> rfl

theorem save_rating_pendingStart (s : Session) :
    (save_rating s).pendingStart = s.pendingStart := by
  simp only [save_rating, save_rating_df]
  split <;> rfl

theorem save_rating_pendingEnd (s : Session) :
    (save_rating s).pendingEnd = s.pendingEnd := by
  simp only [save_rating, save_rating_df]
  split <;> rfl

theorem save_rating_raterName (s : Session) :
    (save_rating s).raterName = s.raterName := by
  simp only [save_rating, save_rating_df]
  split <;> rfl

theorem save_rating_persisted (s : Session) :
    (save_rating s).persisted = (save_rating s).table := by
  simp only [save_rating, save_rating_df]
  split <;> rfl

theorem getRec_save_rating_ne (s : Session) (i : Nat) (h : i ≠ s.cursor) :
    getRec (save_rating s).table i = getRec s.table i := by
  obtain ⟨r, ht, -⟩ := save_rating_table_set s
  rw [ht, getRec_set_ne _ r (fun hh => h hh.symm)]


/-- C3: `commitEdit` (`AudioAnnotator.save_rating`) normalizes the new text
(lowercase, trim); if the normalized text differs from the normalized stored
transcription or the `timesChanged` flag is set, it updates the
transcription to the normalized form, writes `start` and `end` rounded to
2 decimal places, sets `changed = true` and clears `timesChanged`; when
neither differs it leaves transcription, start, end and changed untouched;
in every case it stamps `rater = raterName`, touches no other row, and
persists the whole table. -/
theorem commitEdit_contract (s : Session) (hc : s.cursor < s.table.length) :
    ((normalize_word s.pendingText ≠
        normalize_word (getRec s.table s.cursor).transcription ∨
      s.timesChanged = true) →
      getRec (save_rating s).table s.cursor =
        { getRec s.table s.cursor with
            transcription := normalize_word s.pendingText
            start := round2 s.pendingStart
            «end» := round2 s.pendingEnd
            rater := some s.raterName
            changed := true } ∧
      (save_rating s).timesChanged = false) ∧
    ((normalize_word s.pendingText =
        normalize_word (getRec s.table s.cursor).transcription ∧
      s.timesChanged = false) →
      getRec (save_rating s).table s.cursor =
        { getRec s.table s.cursor with rater := some s.raterName }) ∧
    (getRec (save_rating s).table s.cursor).rater = some s.raterName ∧
    (∀ i, i ≠ s.cursor → getRec (save_rating s).table i = getRec s.table i) ∧
    (save_rating s).persisted = (save_rating s).table := by
  have hchanged : (normalize_word (getRec s.table s.cursor).transcription ≠
        normalize_word s.pendingText ∨ s.timesChanged = true) →
      getRec (save_rating s).table s.cursor = savedRec s ∧
      (save_rating s).timesChanged = false := by
    intro h
    rw [save_rating_of_changed s hc h]
    exact ⟨getRec_set_self _ _ _ hc, rfl⟩
  have hunchanged : ∀ (h1 : normalize_word (getRec s.table s.cursor).transcription =
        normalize_word s.pendingText) (h2 : s.timesChanged = false),
      getRec (save_rating s).table s.cursor = stampedRec s := by
    intro h1 h2
    rw [save_rating_of_unchanged s h1 h2]
    exact getRec_set_self _ _ _ hc
  refine ⟨?_, ?_, ?_, ?_, save_rating_persisted s⟩
  · intro h
    have h' : normalize_word (getRec s.table s.cursor).transcription ≠
        normalize_word s.pendingText ∨ s.timesChanged = true := by
      rcases h with h | h
      · exact Or.inl (Ne.symm h)
      · exact Or.inr h
    exact hchanged h'
  · rintro ⟨h1, h2⟩
    exact hunchanged h1.symm h2
  · by_cases h : normalize_word (getRec s.table s.cursor).transcription ≠
        normalize_word s.pendingText ∨ s.timesChanged = true
    · rw [(hchanged h).1]
      rfl
    · push_neg at h
      rw [hunchanged h.1 (by simpa using h.2)]
      rfl
  · intro i hi
    exact getRec_save_rating_ne s i hi

/-! ## Concrete sessions for witnesses and counterexamples -/

/-- The spec's scenario record: word "cat" over `[1.0, 1.5]`. -/
def catRec : WordRecord :=
  { transcription := "cat", word_clean := "cat", start := 1, «end» := 3/2
    rater := none, changed := false }

def dogRec : WordRecord :=
  { transcription := "dog", word_clean := "dog", start := 2, «end» := 4
    rater := some "xy", changed := true }

def birdRec : WordRecord :=
  { transcription := "bird", word_clean := "bird", start := 5, «end» := 6
    rater := none, changed := false }

/-- A loaded three-record session with pending text "Cat " over the stored
"cat" and identical boundaries. -/
def sessCat : Session :=
  { table := [catRec, dogRec, birdRec], cursor := 0, pendingText := "Cat "
    pendingStart := 1, pendingEnd := 3/2, timesChanged := false
    raterName := "ab", persisted := [catRec, dogRec, birdRec] }

/-- C3 witness: `commitEdit "Cat "` on the stored `"cat"` with identical
boundaries does not set `changed` but still stamps `rater`, and the table
is persisted. -/
theorem commitEdit_contract_witness :
    (getRec (save_rating sessCat).table sessCat.cursor).changed = false ∧
    (getRec (save_rating sessCat).table sessCat.cursor).rater = some "ab" ∧
    (save_rating sessCat).persisted = (save_rating sessCat).table := by
  have h := commitEdit_contract sessCat (by decide)
  have hrec := h.2.1 ⟨by decide, rfl⟩
  refine ⟨?_, ?_, h.2.2.2.2⟩
  · rw [hrec]
    rfl
  · rw [hrec]
    rfl

/-- C7: `commitEdit` is idempotent — committing the same pending text and
boundary values twice in a row yields the same session state (the same
table contents and the same persisted table) as committing once. -/
theorem commitEdit_idempotent (s : Session) (hc : s.cursor < s.table.length) :
    save_rating (save_rating s) = save_rating s := by
  have hc2 : (save_rating s).cursor < (save_rating s).table.length := by
    rw [save_rating_cursor, save_rating_length]; exact hc
  by_cases h : normalize_word (getRec s.table s.cursor).transcription ≠
      normalize_word s.pendingText ∨ s.timesChanged = true
  · have e := save_rating_of_changed s hc h
    have hrec : getRec (save_rating s).table (save_rating s).cursor =
        savedRec s := by
      rw [e]; exact getRec_set_self _ _ _ hc
    by_cases h2 : normalize_word
          (getRec (save_rating s).table (save_rating s).cursor).transcription ≠
        normalize_word (save_rating s).pendingText ∨
        (save_rating s).timesChanged = true
    · have e2 := save_rating_of_changed (save_rating s) hc2 h2
      have hsaved : savedRec (save_rating s) = savedRec s := by
        unfold savedRec
        rw [hrec, e]
        rfl
      rw [e2, hsaved, e]
      simp [List.set_set]
    · push_neg at h2
      have e2 := save_rating_of_unchanged (save_rating s) h2.1
        (by simpa using h2.2)
      have hstamped : stampedRec (save_rating s) = savedRec s := by
        unfold stampedRec
        rw [hrec, e]
        rfl
      rw [e2, hstamped, e]
      simp [List.set_set]
  · push_neg at h
    have hb : s.timesChanged = false := by simpa using h.2
    have e := save_rating_of_unchanged s h.1 hb
    have hrec : getRec (save_rating s).table (save_rating s).cursor =
        stampedRec s := by
      rw [e]; exact getRec_set_self _ _ _ hc
    by_cases h2 : normalize_word
          (getRec (save_rating s).table (save_rating s).cursor).transcription ≠
        normalize_word (save_rating s).pendingText ∨
        (save_rating s).timesChanged = true
    · exfalso
      rcases h2 with h2 | h2
      · apply h2
        rw [hrec, e]
        exact h.1
      · rw [e] at h2
        simp [hb] at h2
    · push_neg at h2
      have e2 := save_rating_of_unchanged (save_rating s) h2.1
        (by simpa using h2.2)
      have hstamped : stampedRec (save_rating s) = stampedRec s := by
        unfold stampedRec
        rw [hrec, e]
        rfl
      rw [e2, hstamped, e]
      simp [List.set_set]

/-- C7 witness: idempotence evaluated at the concrete session. -/
theorem commitEdit_idempotent_witness :
    sessCat.cursor < sessCat.table.length ∧
    save_rating (save_rating sessCat) = save_rating sessCat :=
  ⟨by decide, commitEdit_idempotent sessCat (by decide)⟩

/-! ## Navigation -/

theorem show_current_word_of_nonempty (s : Session) (h : s.table.length ≠ 0) :
    show_current_word s =
      ({ s with pendingText := (getRec s.table s.cursor).transcription
                pendingStart := (getRec s.table s.cursor).start
                pendingEnd := (getRec s.table s.cursor).«end» }, none) := by
  unfold show_current_word
  rw [if_neg h]

/-- C5: dragging the start boundary to `x ≥ currentEnd` is a no-op (the
pending start snaps back, no flag is set); symmetrically for the end
boundary with `y ≤ currentStart`; in the allowed cases the pending value
is updated, `timesChanged` is set, and neither the table nor the persisted
output changes. -/
theorem moveBoundary_contract (s : Session) (x y : Rat) :
    (x ≥ s.pendingEnd → on_start_line_moved x s = s) ∧
    (x < s.pendingEnd →
      (on_start_line_moved x s).pendingStart = x ∧
      (on_start_line_moved x s).pendingEnd = s.pendingEnd ∧
      (on_start_line_moved x s).timesChanged = true ∧
      (on_start_line_moved x s).table = s.table ∧
      (on_start_line_moved x s).persisted = s.persisted) ∧
    (y ≤ s.pendingStart → on_end_line_moved y s = s) ∧
    (s.pendingStart < y →
      (on_end_line_moved y s).pendingEnd = y ∧
      (on_end_line_moved y s).pendingStart = s.pendingStart ∧
      (on_end_line_moved y s).timesChanged = true ∧
      (on_end_line_moved y s).table = s.table ∧
      (on_end_line_moved y s).persisted = s.persisted) := by
  refine ⟨fun h => ?_, fun h => ?_, fun h => ?_, fun h => ?_⟩
  · unfold on_start_line_moved
    rw [if_pos h]
  · unfold on_start_line_moved
    rw [if_neg (not_le.mpr h)]
    exact ⟨rfl, rfl, rfl, rfl, rfl⟩
  · unfold on_end_line_moved
    rw [if_pos h]
  · unfold on_end_line_moved
    rw [if_neg (not_le.mpr h)]
    exact ⟨rfl, rfl, rfl, rfl, rfl⟩

/-- C5 witness: at the concrete session (pending span `[1, 1.5]`), a drag
of the start line to 2 snaps back; a drag to 1.25 goes through. -/
theorem moveBoundary_contract_witness :
    ((2:Rat) ≥ sessCat.pendingEnd ∧ on_start_line_moved 2 sessCat = sessCat) ∧
    ((5/4:Rat) < sessCat.pendingEnd ∧
      (on_start_line_moved (5/4) sessCat).pendingStart = 5/4 ∧
      (on_start_line_moved (5/4) sessCat).timesChanged = true ∧
      (on_start_line_moved (5/4) sessCat).persisted = sessCat.persisted) := by
  have h1 := (moveBoundary_contract sessCat 2 1).1
  have h2 := (moveBoundary_contract sessCat (5/4) 1).2.1
  have hge : (2:Rat) ≥ sessCat.pendingEnd := by with_unfolding_all decide
  have hlt : (5/4:Rat) < sessCat.pendingEnd := by with_unfolding_all decide
  exact ⟨⟨hge, h1 hge⟩, hlt, (h2 hlt).1, (h2 hlt).2.2.1, (h2 hlt).2.2.2.2⟩

/-- C6: `prev` always commits the pending edits (including the persist)
first; only then, at cursor 0 it reports `NoPreviousWord` leaving the
state exactly as committed (cursor 0), otherwise it decrements the cursor
and reloads the pending buffer from the new current record. -/
theorem prev_contract (s : Session) (hc : s.cursor < s.table.length) :
    (prev_word s).1.table = (save_rating s).table ∧
    (prev_word s).1.persisted = (save_rating s).table ∧
    (s.cursor = 0 →
      (prev_word s).2 = some Report.noPreviousWord ∧
      (prev_word s).1 = save_rating s ∧
      (prev_word s).1.cursor = 0) ∧
    (0 < s.cursor →
      (prev_word s).1.cursor = s.cursor - 1 ∧
      (prev_word s).2 = none ∧
      (prev_word s).1.pendingText =
        (getRec (save_rating s).table (s.cursor - 1)).transcription ∧
      (prev_word s).1.pendingStart =
        (getRec (save_rating s).table (s.cursor - 1)).start ∧
      (prev_word s).1.pendingEnd =
        (getRec (save_rating s).table (s.cursor - 1)).«end») := by
  have hcur := save_rating_cursor s
  have hlen := save_rating_length s
  simp only [prev_word]
  rw [hcur]
  by_cases h0 : s.cursor = 0
  · rw [if_pos h0]
    refine ⟨rfl, save_rating_persisted s, fun _ => ⟨rfl, rfl, hcur.trans h0⟩,
      fun hlt => absurd h0 (by omega)⟩
  · rw [if_neg h0]
    have hne : (save_rating s).table.length ≠ 0 := by
      rw [hlen]; omega
    rw [show_current_word_of_nonempty
      { save_rating s with cursor := s.cursor - 1 } hne]
    refine ⟨rfl, save_rating_persisted s, fun hz => absurd hz h0,
      fun hlt => ⟨rfl, rfl, rfl, rfl, rfl⟩⟩

/-- C6 witness: at the concrete session with cursor 0, `prev` commits
(table persisted) and reports `NoPreviousWord` with the cursor still 0. -/
theorem prev_contract_witness :
    (prev_word sessCat).2 = some Report.noPreviousWord ∧
    (prev_word sessCat).1.cursor = 0 ∧
    (prev_word sessCat).1.persisted = (save_rating sessCat).table := by
  have h := prev_contract sessCat (by decide)
  exact ⟨(h.2.2.1 rfl).1, (h.2.2.1 rfl).2.2, h.2.1⟩

theorem next_word_cursor_lt (s : Session) (hc : s.cursor < s.table.length) :
    (next_word s).1.cursor < (next_word s).1.table.length := by
  have hcur := save_rating_cursor s
  have hlen := save_rating_length s
  simp only [next_word]
  by_cases hend : (save_rating s).cursor = (save_rating s).table.length - 1
  · rw [if_pos hend]
    show (save_rating s).cursor < (save_rating s).table.length
    rw [hcur, hlen]
    exact hc
  · rw [if_neg hend]
    have hne : (save_rating s).table.length ≠ 0 := by
      rw [hlen]; omega
    rw [show_current_word_of_nonempty
      { save_rating s with cursor := (save_rating s).cursor + 1 } hne]
    show (save_rating s).cursor + 1 < (save_rating s).table.length
    rw [hcur, hlen]
    rw [hcur, hlen] at hend
    omega

/-- A loaded single-record session (the spec scenario
`[\x7bt:"cat",start:1.0,end:1.5\x7d]`). -/
def sessSolo : Session :=
  { table := [catRec], cursor := 0, pendingText := "cat"
    pendingStart := 1, pendingEnd := 3/2, timesChanged := false
    raterName := "ab", persisted := [catRec] }

/-- C4: `next` first commits the pending edit buffer (persisting the
table); if the cursor is at the last record it reports the "data saved"
terminal-of-sequence signal — not an error — and leaves the state exactly
as committed (cursor unchanged); otherwise it increments the cursor and
reloads the pending buffer from the new current record.  Iterating `next`
any number of times keeps the cursor within `[0, len(table) - 1]`. -/
theorem next_contract (s : Session) (hc : s.cursor < s.table.length) :
    (next_word s).1.table = (save_rating s).table ∧
    (next_word s).1.persisted = (save_rating s).table ∧
    (s.cursor = s.table.length - 1 →
      (next_word s).2 = some Report.dataSaved ∧
      (next_word s).1 = save_rating s ∧
      (next_word s).1.cursor = s.cursor) ∧
    (s.cursor < s.table.length - 1 →
      (next_word s).1.cursor = s.cursor + 1 ∧
      (next_word s).2 = none ∧
      (next_word s).1.pendingText =
        (getRec (save_rating s).table (s.cursor + 1)).transcription ∧
      (next_word s).1.pendingStart =
        (getRec (save_rating s).table (s.cursor + 1)).start ∧
      (next_word s).1.pendingEnd =
        (getRec (save_rating s).table (s.cursor + 1)).«end») ∧
    (∀ n : Nat, ((fun t => (next_word t).1)^[n] s).cursor <
      ((fun t => (next_word t).1)^[n] s).table.length) := by
  have hcur := save_rating_cursor s
  have hlen := save_rating_length s
  have hiter : ∀ n : Nat, ((fun t => (next_word t).1)^[n] s).cursor <
      ((fun t => (next_word t).1)^[n] s).table.length := by
    intro n
    induction n with
    | zero => exact hc
    | succ k ih =>
      rw [Function.iterate_succ_apply']
      exact next_word_cursor_lt _ ih
  have hne : (save_rating s).table.length ≠ 0 := by rw [hlen]; omega
  simp only [next_word]
  rw [hcur, hlen]
  by_cases hend : s.cursor = s.table.length - 1
  · rw [if_pos hend]
    exact ⟨rfl, save_rating_persisted s, fun _ => ⟨rfl, rfl, hcur⟩,
      fun hlt => absurd hend (by omega), hiter⟩
  · rw [if_neg hend]
    rw [show_current_word_of_nonempty
      { save_rating s with cursor := s.cursor + 1 } hne]
    exact ⟨rfl, save_rating_persisted s, fun hz => absurd hz hend,
      fun hlt => ⟨rfl, rfl, rfl, rfl, rfl⟩, hiter⟩

/-- C4 witness: `next` on the single-row session reports the terminal
"data saved" signal and leaves the cursor at 0; on the three-row session
it advances the cursor to 1. -/
theorem next_contract_witness :
    (next_word sessSolo).2 = some Report.dataSaved ∧
    (next_word sessSolo).1.cursor = 0 ∧
    (next_word sessCat).1.cursor = 1 := by
  have h1 := next_contract sessSolo (by decide)
  have h2 := next_contract sessCat (by decide)
  exact ⟨(h1.2.2.1 rfl).1, (h1.2.2.1 rfl).2.2, (h2.2.2.2.1 (by decide)).1⟩

/-! ## Delete -/

theorem delete_word_eq (s : Session) :
    delete_word s =
      show_current_word (
        if s.cursor ≥ (s.table.eraseIdx s.cursor).length ∧ 0 < s.cursor then
          { s with table := s.table.eraseIdx s.cursor
                   persisted := s.table.eraseIdx s.cursor
                   cursor := s.cursor - 1 }
        else
          { s with table := s.table.eraseIdx s.cursor
                   persisted := s.table.eraseIdx s.cursor }) := by
  unfold delete_word save_rating_df
  rfl

/-- C1 (amended): `deleteCurrent`, invoked on a loaded table: when
`len(table) > 1` it removes exactly the record at the cursor (decreasing
the table length by exactly 1), clamps the cursor to
`min(cursor, len(table)-1)` so the cursor stays within
`[0, len(table)-1]`, and persists immediately; when `len(table) == 1` the
operation does NOT fail with `CannotDeleteLastRecord` — the delete action
is merely disabled upstream — and if invoked it removes the record as
well, leaving an empty, persisted table and reporting the empty-table
condition. -/
theorem deleteCurrent_contract (s : Session) (hc : s.cursor < s.table.length) :
    (1 < s.table.length →
      (delete_word s).1.table =
        s.table.take s.cursor ++ s.table.drop (s.cursor + 1) ∧
      (delete_word s).1.table.length = s.table.length - 1 ∧
      (delete_word s).1.cursor =
        min s.cursor ((delete_word s).1.table.length - 1) ∧
      (delete_word s).1.cursor < (delete_word s).1.table.length ∧
      (delete_word s).1.persisted = (delete_word s).1.table ∧
      (delete_word s).2 = none) ∧
    (s.table.length = 1 →
      (delete_word s).1.table = [] ∧
      (delete_word s).1.persisted = [] ∧
      (delete_word s).1.cursor = 0 ∧
      (delete_word s).2 = some Report.emptyTable ∧
      (delete_word s).2 ≠ some Report.cannotDeleteLastRecord) := by
  have hlen : (s.table.eraseIdx s.cursor).length = s.table.length - 1 := by
    rw [List.length_eraseIdx]
    simp [hc]
  have htd : s.table.eraseIdx s.cursor =
      s.table.take s.cursor ++ s.table.drop (s.cursor + 1) :=
    List.eraseIdx_eq_take_drop_succ s.table s.cursor
  rw [delete_word_eq]
  constructor
  · intro hgt
    by_cases hcond : s.cursor ≥ (s.table.eraseIdx s.cursor).length ∧ 0 < s.cursor
    · rw [if_pos hcond]
      have hne : (s.table.eraseIdx s.cursor).length ≠ 0 := by omega
      rw [show_current_word_of_nonempty
        { s with table := s.table.eraseIdx s.cursor
                 persisted := s.table.eraseIdx s.cursor
                 cursor := s.cursor - 1 } hne]
      refine ⟨htd, hlen, ?_, ?_, rfl, rfl⟩
      · show s.cursor - 1 = min s.cursor ((s.table.eraseIdx s.cursor).length - 1)
        omega
      · show s.cursor - 1 < (s.table.eraseIdx s.cursor).length
        omega
    · rw [if_neg hcond]
      have hne : (s.table.eraseIdx s.cursor).length ≠ 0 := by
        rw [hlen]
        rcases Nat.lt_or_ge s.cursor (s.table.eraseIdx s.cursor).length with h | h
        · omega
        · exfalso
          exact hcond ⟨h, by omega⟩
      rw [show_current_word_of_nonempty
        { s with table := s.table.eraseIdx s.cursor
                 persisted := s.table.eraseIdx s.cursor } hne]
      have hcur_lt : s.cursor < (s.table.eraseIdx s.cursor).length := by
        by_cases h0 : 0 < s.cursor
        · rcases Nat.lt_or_ge s.cursor (s.table.eraseIdx s.cursor).length with h | h
          · exact h
          · exact absurd ⟨h, h0⟩ hcond
        · omega
      refine ⟨htd, hlen, ?_, ?_, rfl, rfl⟩
      · show s.cursor = min s.cursor ((s.table.eraseIdx s.cursor).length - 1)
        omega
      · exact hcur_lt
  · intro h1
    have hc0 : s.cursor = 0 := by omega
    have hdf : s.table.eraseIdx s.cursor = [] := by
      have : (s.table.eraseIdx s.cursor).length = 0 := by omega
      exact List.length_eq_zero.mp this
    have hcond : ¬(s.cursor ≥ (s.table.eraseIdx s.cursor).length ∧
        0 < s.cursor) := by
      rintro ⟨-, h0⟩
      omega
    rw [if_neg hcond]
    unfold show_current_word
    rw [if_pos (by simpa using congrArg List.length hdf)]
    exact ⟨hdf, hdf, hc0, rfl, by simp⟩

/-! ## Split -/

theorem getRec_eq_getElem (t : List WordRecord) (i : Nat) (h : i < t.length) :
    getRec t i = t[i] := by
  simp [getRec, List.getD_eq_getElem?_getD, List.getElem?_eq_getElem h]

theorem getRec_middle0 (A B : List WordRecord) (y z : WordRecord) (i : Nat)
    (h : A.length = i) : getRec (A ++ y :: z :: B) i = y := by
  subst h
  simp [getRec, List.getD_eq_getElem?_getD,
    List.getElem?_append_right (Nat.le_refl A.length)]

theorem getRec_middle1 (A B : List WordRecord) (y z : WordRecord) (i : Nat)
    (h : A.length = i) : getRec (A ++ y :: z :: B) (i + 1) = z := by
  subst h
  have hr : (A ++ y :: z :: B)[A.length + 1]? =
      (y :: z :: B)[A.length + 1 - A.length]? :=
    List.getElem?_append_right (by omega)
  simp [getRec, List.getD_eq_getElem?_getD, hr]

theorem set_middle0 (A B : List WordRecord) (y z v : WordRecord) (i : Nat)
    (h : A.length = i) : (A ++ y :: z :: B).set i v = A ++ v :: z :: B := by
  subst h
  induction A with
  | nil => rfl
  | cons a A ih => simp [ih]

theorem set_middle1 (A B : List WordRecord) (y z v : WordRecord) (i : Nat)
    (h : A.length = i) : (A ++ y :: z :: B).set (i + 1) v = A ++ y :: v :: B := by
  subst h
  induction A with
  | nil => rfl
  | cons a A ih => simp [ih]

/-- Structural characterization of `split_word` on a loaded session: the
table becomes `prefix ++ [first copy, second copy] ++ suffix`. -/
theorem split_word_table (s : Session) (hc : s.cursor < s.table.length) :
    (split_word s).1.table =
      s.table.take s.cursor ++
        { getRec s.table s.cursor with
            transcription :=
              (getRec s.table s.cursor).transcription ++ " (split 1)"
            «end» := (s.pendingStart + s.pendingEnd) / 2 - 1/10 } ::
        { getRec s.table s.cursor with
            transcription :=
              (getRec s.table s.cursor).transcription ++ " (split 2)"
            start := (s.pendingStart + s.pendingEnd) / 2 + 1/10 } ::
        s.table.drop (s.cursor + 1) ∧
    (split_word s).1.persisted = (split_word s).1.table ∧
    (split_word s).1.cursor = s.cursor ∧
    (split_word s).2 = none := by
  have hA : (s.table.take s.cursor).length = s.cursor := by
    simp [List.length_take]
    omega
  have hx : s.table.take (s.cursor + 1) =
      s.table.take s.cursor ++ [getRec s.table s.cursor] := by
    rw [List.take_succ, List.getElem?_eq_getElem hc, getRec_eq_getElem _ _ hc]
    rfl
  have h0 : s.table.take (s.cursor + 1) ++ [getRec s.table s.cursor] ++
      s.table.drop (s.cursor + 1) =
      s.table.take s.cursor ++ getRec s.table s.cursor ::
        getRec s.table s.cursor :: s.table.drop (s.cursor + 1) := by
    rw [hx]
    simp
  have g0 : ∀ (y z : WordRecord) (B : List WordRecord),
      getRec (s.table.take s.cursor ++ y :: z :: B) s.cursor = y :=
    fun y z B => getRec_middle0 _ B y z s.cursor hA
  have g1 : ∀ (y z : WordRecord) (B : List WordRecord),
      getRec (s.table.take s.cursor ++ y :: z :: B) (s.cursor + 1) = z :=
    fun y z B => getRec_middle1 _ B y z s.cursor hA
  have p0 : ∀ (y z v : WordRecord) (B : List WordRecord),
      (s.table.take s.cursor ++ y :: z :: B).set s.cursor v =
        s.table.take s.cursor ++ v :: z :: B :=
    fun y z v B => set_middle0 _ B y z v s.cursor hA
  have p1 : ∀ (y z v : WordRecord) (B : List WordRecord),
      (s.table.take s.cursor ++ y :: z :: B).set (s.cursor + 1) v =
        s.table.take s.cursor ++ y :: v :: B :=
    fun y z v B => set_middle1 _ B y z v s.cursor hA
  simp only [split_word, save_rating_df, h0, g0, g1, p0, p1]
  rw [show_current_word_of_nonempty]
  · exact ⟨rfl, rfl, rfl, rfl⟩
  · simp

theorem getRec_append_left (A B : List WordRecord) (i : Nat)
    (h : i < A.length) : getRec (A ++ B) i = getRec A i := by
  simp [getRec, List.getD_eq_getElem?_getD, List.getElem?_append, h]

theorem getRec_append_right (A B : List WordRecord) (i : Nat)
    (h : A.length ≤ i) : getRec (A ++ B) i = getRec B (i - A.length) := by
  simp [getRec, List.getD_eq_getElem?_getD, List.getElem?_append_right h]

theorem getRec_take (t : List WordRecord) (i n : Nat) (h : i < n) :
    getRec (t.take n) i = getRec t i := by
  simp [getRec, List.getD_eq_getElem?_getD, List.getElem?_take, h]

theorem getRec_drop (t : List WordRecord) (n i : Nat) :
    getRec (t.drop n) i = getRec t (n + i) := by
  simp [getRec, List.getD_eq_getElem?_getD, List.getElem?_drop]

/-- C2: `splitCurrent` on a loaded session with the pending start/end set
increases the table length by exactly 1, preserves the relative order and
contents of all other records (indices below the cursor keep their
position, indices above it shift by +1), replaces the record at the cursor
by two adjacent copies at positions `cursor` and `cursor + 1` whose
boundaries satisfy `first.end = mid - 0.1` and `second.start = mid + 0.1`
for `mid = (pendingStart + pendingEnd) / 2`, appends `" (split 1)"` and
`" (split 2)"` to the two transcriptions respectively, and persists the
table immediately. -/
theorem splitCurrent_contract (s : Session) (hc : s.cursor < s.table.length) :
    (split_word s).1.table.length = s.table.length + 1 ∧
    (∀ i, i < s.cursor →
      getRec (split_word s).1.table i = getRec s.table i) ∧
    (∀ i, s.cursor < i → i < s.table.length →
      getRec (split_word s).1.table (i + 1) = getRec s.table i) ∧
    getRec (split_word s).1.table s.cursor =
      { getRec s.table s.cursor with
          transcription :=
            (getRec s.table s.cursor).transcription ++ " (split 1)"
          «end» := (s.pendingStart + s.pendingEnd) / 2 - 1/10 } ∧
    getRec (split_word s).1.table (s.cursor + 1) =
      { getRec s.table s.cursor with
          transcription :=
            (getRec s.table s.cursor).transcription ++ " (split 2)"
          start := (s.pendingStart + s.pendingEnd) / 2 + 1/10 } ∧
    (split_word s).1.persisted = (split_word s).1.table := by
  obtain ⟨ht, hp, -, -⟩ := split_word_table s hc
  have hA : (s.table.take s.cursor).length = s.cursor := by
    simp [List.length_take]
    omega
  refine ⟨?_, ?_, ?_, ?_, ?_, hp⟩
  · rw [ht]
    simp [List.length_take, List.length_drop]
    omega
  · intro i hi
    rw [ht, getRec_append_left _ _ i (by omega), getRec_take _ _ _ hi]
  · intro i hi hilen
    rw [ht, getRec_append_right _ _ (i + 1) (by omega)]
    have hidx : i + 1 - (s.table.take s.cursor).length =
        (i - s.cursor - 1) + 2 := by
      rw [hA]; omega
    rw [hidx]
    show getRec (s.table.drop (s.cursor + 1)) (i - s.cursor - 1) =
      getRec s.table i
    rw [getRec_drop]
    congr 1
    omega
  · rw [ht, getRec_middle0 _ _ _ _ s.cursor hA]
  · rw [ht, getRec_middle1 _ _ _ _ s.cursor hA]

/-- C2 witness: splitting the single-record session (span `[1, 1.5]`,
midpoint 1.25) yields two records with `end₁ = 1.15`, `start₂ = 1.35`,
the split labels, and a persisted two-record table. -/
theorem splitCurrent_contract_witness :
    (split_word sessSolo).1.table.length = 2 ∧
    (getRec (split_word sessSolo).1.table 0).«end» = 23/20 ∧
    (getRec (split_word sessSolo).1.table 1).start = 27/20 ∧
    (getRec (split_word sessSolo).1.table 0).transcription = "cat (split 1)" ∧
    (getRec (split_word sessSolo).1.table 1).transcription = "cat (split 2)" ∧
    (split_word sessSolo).1.persisted = (split_word sessSolo).1.table := by
  have h := splitCurrent_contract sessSolo (by decide)
  refine ⟨h.1, ?_, ?_, ?_, ?_, h.2.2.2.2.2⟩
  · show (getRec (split_word sessSolo).1.table sessSolo.cursor).«end» = 23/20
    rw [h.2.2.2.1]
    with_unfolding_all decide
  · show (getRec (split_word sessSolo).1.table
      (sessSolo.cursor + 1)).start = 27/20
    rw [h.2.2.2.2.1]
    with_unfolding_all decide
  · show (getRec (split_word sessSolo).1.table
      sessSolo.cursor).transcription = "cat (split 1)"
    rw [h.2.2.2.1]
    decide
  · show (getRec (split_word sessSolo).1.table
      (sessSolo.cursor + 1)).transcription = "cat (split 2)"
    rw [h.2.2.2.2.1]
    decide

/-- C1 counterexample: invoked on a loaded single-record table,
`delete_word` does not fail with `CannotDeleteLastRecord` and does not
leave the table unchanged — it deletes the record and persists an empty
table, reporting only the empty-table condition afterwards. -/
theorem deleteCurrent_lastRecord_counterexample :
    sessSolo.table.length = 1 ∧
    (delete_word sessSolo).1.table = [] ∧
    (delete_word sessSolo).1.table ≠ sessSolo.table ∧
    (delete_word sessSolo).1.persisted = [] ∧
    (delete_word sessSolo).2 ≠ some Report.cannotDeleteLastRecord := by
  with_unfolding_all decide

/-- C1 witness: the amended contract evaluated on the three-record session
at cursor 0: the cursor's record is removed, the table length drops to 2,
the cursor stays at 0, and the shrunken table is persisted. -/
theorem deleteCurrent_contract_witness :
    1 < sessCat.table.length ∧
    (delete_word sessCat).1.table =
      sessCat.table.take 0 ++ sessCat.table.drop 1 ∧
    (delete_word sessCat).1.cursor = 0 ∧
    (delete_word sessCat).1.persisted = (delete_word sessCat).1.table := by
  have h := (deleteCurrent_contract sessCat (by decide)).1 (by decide)
  refine ⟨by decide, h.1, ?_, h.2.2.2.2.1⟩
  rw [h.2.2.1, h.2.1]
  decide

/-! ## Frame lemmas over the table -/

theorem show_current_word_table (s : Session) :
    (show_current_word s).1.table = s.table := by
  simp only [show_current_word]
  split <;> rfl

theorem show_current_word_timesChanged (s : Session) :
    (show_current_word s).1.timesChanged = s.timesChanged := by
  simp only [show_current_word]
  split <;> rfl

theorem next_word_table (s : Session) :
    (next_word s).1.table = (save_rating s).table := by
  simp only [next_word]
  split
  · rfl
  · rw [show_current_word_table]

theorem prev_word_table (s : Session) :
    (prev_word s).1.table = (save_rating s).table := by
  simp only [prev_word]
  split
  · rfl
  · rw [show_current_word_table]

theorem jump_table (j : Nat) (s : Session) :
    (on_context_item_clicked j s).1.table = (save_rating s).table := by
  simp only [on_context_item_clicked]
  split
  · rw [show_current_word_table]
  · rfl

theorem delete_word_tbl (s : Session) :
    (delete_word s).1.table = s.table.eraseIdx s.cursor := by
  rw [delete_word_eq]
  split <;> rw [show_current_word_table]

theorem save_rating_changed_mono (s : Session) (hc : s.cursor < s.table.length)
    (i : Nat) (hi : (getRec s.table i).changed = true) :
    (getRec (save_rating s).table i).changed = true := by
  by_cases hic : i = s.cursor
  · subst hic
    by_cases h : normalize_word (getRec s.table s.cursor).transcription ≠
        normalize_word s.pendingText ∨ s.timesChanged = true
    · rw [save_rating_of_changed s hc h, getRec_set_self _ _ _ hc]
      rfl
    · push_neg at h
      rw [save_rating_of_unchanged s h.1 (by simpa using h.2),
        getRec_set_self _ _ _ hc]
      exact hi
  · rw [getRec_save_rating_ne s i hic]
    exact hi

/-- A session whose pending text differs from the stored transcription, so
a commit rewrites the transcription while `word_clean` keeps its imported
value. -/
def sessEdit : Session :=
  { sessCat with pendingText := "feline" }

/-- C9: no operation after import updates `word_clean`: `commitEdit`
rewrites the transcription (normalized) without touching `word_clean` in
any row, and `splitCurrent` appends suffixes to the transcriptions while
both children keep the original `word_clean` — so after a text edit or a
split a record's `word_clean` need not equal the lowercase, trimmed form
of its transcription (witnessed by the two concrete disequalities). -/
theorem word_clean_frame (s : Session) (hc : s.cursor < s.table.length) :
    (∀ i, (getRec (save_rating s).table i).word_clean =
      (getRec s.table i).word_clean) ∧
    (getRec (split_word s).1.table s.cursor).word_clean =
      (getRec s.table s.cursor).word_clean ∧
    (getRec (split_word s).1.table (s.cursor + 1)).word_clean =
      (getRec s.table s.cursor).word_clean ∧
    (getRec (split_word sessSolo).1.table 0).word_clean ≠
      normalize_word (getRec (split_word sessSolo).1.table 0).transcription ∧
    (getRec (save_rating sessEdit).table 0).word_clean ≠
      normalize_word (getRec (save_rating sessEdit).table 0).transcription := by
  have hA : (s.table.take s.cursor).length = s.cursor := by
    simp [List.length_take]
    omega
  obtain ⟨ht, -, -, -⟩ := split_word_table s hc
  refine ⟨?_, ?_, ?_, ?_, ?_⟩
  · intro i
    by_cases hic : i = s.cursor
    · subst hic
      by_cases h : normalize_word (getRec s.table s.cursor).transcription ≠
          normalize_word s.pendingText ∨ s.timesChanged = true
      · rw [save_rating_of_changed s hc h, getRec_set_self _ _ _ hc]
        rfl
      · push_neg at h
        rw [save_rating_of_unchanged s h.1 (by simpa using h.2),
          getRec_set_self _ _ _ hc]
        rfl
    · rw [getRec_save_rating_ne s i hic]
  · rw [ht, getRec_middle0 _ _ _ _ s.cursor hA]
  · rw [ht, getRec_middle1 _ _ _ _ s.cursor hA]
  · with_unfolding_all decide
  · with_unfolding_all decide

/-- C9 witness: the frame property applied at the concrete sessions —
`commitEdit` leaves row 0's `word_clean` untouched, and after the split
the stale `word_clean` no longer matches the normalized transcription. -/
theorem word_clean_frame_witness :
    (getRec (save_rating sessCat).table 0).word_clean =
      (getRec sessCat.table 0).word_clean ∧
    (getRec (split_word sessSolo).1.table 0).word_clean ≠
      normalize_word (getRec (split_word sessSolo).1.table 0).transcription := by
  have h := word_clean_frame sessCat (by decide)
  exact ⟨h.1 0, h.2.2.2.1⟩

/-- C10: the `changed` flag is monotone — once a stored record's `changed`
is true, no session operation (`commitEdit`, `resetCurrent`, `next`,
`prev`, `jumpTo`, `splitCurrent`, or `deleteCurrent` of another record)
ever resets it to false (records are tracked through the index shifts of
split and delete); `resetCurrent` only clears the pending buffer's
`timesChanged` flag and never touches the stored table. -/
theorem changed_monotone (s : Session) (hc : s.cursor < s.table.length)
    (i : Nat) (hi : (getRec s.table i).changed = true) :
    (getRec (save_rating s).table i).changed = true ∧
    ((reset_word s).1.table = s.table ∧
      (reset_word s).1.timesChanged = false) ∧
    (getRec (next_word s).1.table i).changed = true ∧
    (getRec (prev_word s).1.table i).changed = true ∧
    (∀ j, (getRec (on_context_item_clicked j s).1.table i).changed = true) ∧
    (i < s.cursor → (getRec (split_word s).1.table i).changed = true) ∧
    (i = s.cursor → (getRec (split_word s).1.table i).changed = true ∧
      (getRec (split_word s).1.table (i + 1)).changed = true) ∧
    (s.cursor < i → i < s.table.length →
      (getRec (split_word s).1.table (i + 1)).changed = true) ∧
    (i < s.cursor → (getRec (delete_word s).1.table i).changed = true) ∧
    (s.cursor < i → i < s.table.length →
      (getRec (delete_word s).1.table (i - 1)).changed = true) := by
  have hsr := save_rating_changed_mono s hc i hi
  have hA : (s.table.take s.cursor).length = s.cursor := by
    simp [List.length_take]
    omega
  obtain ⟨ht, -, -, -⟩ := split_word_table s hc
  refine ⟨hsr, ⟨?_, ?_⟩, ?_, ?_, ?_, ?_, ?_, ?_, ?_, ?_⟩
  · show (show_current_word { s with timesChanged := false }).1.table = s.table
    rw [show_current_word_table]
  · show (show_current_word
      { s with timesChanged := false }).1.timesChanged = false
    rw [show_current_word_timesChanged]
  · rw [next_word_table]
    exact hsr
  · rw [prev_word_table]
    exact hsr
  · intro j
    rw [jump_table]
    exact hsr
  · intro hlt
    rw [ht, getRec_append_left _ _ i (by omega), getRec_take _ _ _ hlt]
    exact hi
  · intro heq
    subst heq
    constructor
    · rw [ht, getRec_middle0 _ _ _ _ s.cursor hA]
      exact hi
    · rw [ht, getRec_middle1 _ _ _ _ s.cursor hA]
      exact hi
  · intro hlt hlen2
    rw [ht, getRec_append_right _ _ (i + 1) (by rw [hA]; omega)]
    have hidx : i + 1 - (s.table.take s.cursor).length =
        (i - s.cursor - 1) + 2 := by
      rw [hA]; omega
    rw [hidx]
    show (getRec (s.table.drop (s.cursor + 1)) (i - s.cursor - 1)).changed = true
    rw [getRec_drop]
    have hsum : s.cursor + 1 + (i - s.cursor - 1) = i := by omega
    rw [hsum]
    exact hi
  · intro hlt
    rw [delete_word_tbl, List.eraseIdx_eq_take_drop_succ,
      getRec_append_left _ _ i (by rw [hA]; omega), getRec_take _ _ _ hlt]
    exact hi
  · intro hlt hlen2
    rw [delete_word_tbl, List.eraseIdx_eq_take_drop_succ,
      getRec_append_right _ _ (i - 1) (by rw [hA]; omega)]
    have hidx : i - 1 - (s.table.take s.cursor).length = i - s.cursor - 1 := by
      rw [hA]; omega
    rw [hidx, getRec_drop]
    have hsum : s.cursor + 1 + (i - s.cursor - 1) = i := by omega
    rw [hsum]
    exact hi

/-- C10 witness: on the three-record session (cursor 0), the already
`changed` record at index 1 stays `changed` after a commit, after deleting
the record at the cursor (it shifts to index 0), and after a split (it
shifts to index 2); `resetCurrent` leaves the table untouched. -/
theorem changed_monotone_witness :
    (getRec (save_rating sessCat).table 1).changed = true ∧
    (getRec (delete_word sessCat).1.table 0).changed = true ∧
    (getRec (split_word sessCat).1.table 2).changed = true ∧
    (reset_word sessCat).1.table = sessCat.table := by
  have h := changed_monotone sessCat (by decide) 1 (by decide)
  exact ⟨h.1, h.2.2.2.2.2.2.2.2.2 (by decide) (by decide),
    h.2.2.2.2.2.2.2.1 (by decide) (by decide), h.2.1.1⟩

/-- C8: `resolveInitialTable`: if a prior output table exists it is loaded
and returned as-is (all rater/changed stamps preserved) and no initial
output is written; otherwise the pre-annotated input is loaded, a missing
`transcription`, `start` or `end` column is an error naming a required
column, and on success the derived columns are added — `changed = false`
for every row, `rater` kept when that column exists and unset otherwise,
`word_clean` kept when that column exists and otherwise the lowercase,
trimmed transcription — and exactly this derived table is both written as
the initial output and returned. -/
theorem resolveInitialTable_contract (prior : Option (List WordRecord))
    (pre : RawTable) :
    (∀ t, prior = some t →
      resolveInitialTable prior pre = Except.ok (t, none)) ∧
    (prior = none →
      (pre.hasTranscription = false ∨ pre.hasStart = false ∨
        pre.hasEnd = false) →
      ∃ c, resolveInitialTable prior pre =
          Except.error (LoadError.missingColumn c) ∧
        (c = "transcription" ∨ c = "start" ∨ c = "end")) ∧
    (prior = none → pre.hasTranscription = true → pre.hasStart = true →
      pre.hasEnd = true →
      ∃ out, resolveInitialTable prior pre = Except.ok (out, some out) ∧
        out.length = pre.rows.length ∧
        ∀ i, i < pre.rows.length →
          (getRec out i).changed = false ∧
          (getRec out i).transcription =
            (pre.rows.getD i default).transcription ∧
          (getRec out i).start = (pre.rows.getD i default).start ∧
          (getRec out i).«end» = (pre.rows.getD i default).«end» ∧
          (getRec out i).rater =
            (if pre.hasRater then (pre.rows.getD i default).rater else none) ∧
          (getRec out i).word_clean =
            (if pre.hasWordClean then
              ((pre.rows.getD i default).word_clean).getD ""
            else normalize_word (pre.rows.getD i default).transcription)) := by
  refine ⟨?_, ?_, ?_⟩
  · intro t h
    subst h
    rfl
  · intro h hmiss
    subst h
    by_cases hT : pre.hasTranscription = false
    · exact ⟨"transcription", by simp [resolveInitialTable, hT], Or.inl rfl⟩
    · by_cases hS : pre.hasStart = false
      · exact ⟨"start", by simp [resolveInitialTable, hT, hS],
          Or.inr (Or.inl rfl)⟩
      · have hE : pre.hasEnd = false := by
          rcases hmiss with h | h | h
          · exact absurd h hT
          · exact absurd h hS
          · exact h
        exact ⟨"end", by simp [resolveInitialTable, hT, hS, hE],
          Or.inr (Or.inr rfl)⟩
  · intro h hT hS hE
    subst h
    refine ⟨pre.rows.map (derive_output_row pre), ?_, by simp, ?_⟩
    · simp [resolveInitialTable, hT, hS, hE]
    · intro i hi
      have hi2 : i < (pre.rows.map (derive_output_row pre)).length := by
        simpa using hi
      have hrow : getRec (pre.rows.map (derive_output_row pre)) i =
          derive_output_row pre (pre.rows.getD i default) := by
        rw [getRec_eq_getElem _ _ hi2]
        simp [List.getD_eq_getElem?_getD, List.getElem?_eq_getElem hi]
      rw [hrow]
      exact ⟨rfl, rfl, rfl, rfl, rfl, rfl⟩

/-- One pre-annotated input row/table for the C8 witness. -/
def rawCat : RawRow :=
  { transcription := "Cat ", start := 1, «end» := 3/2
    rater := none, word_clean := none }

def preTable : RawTable :=
  { hasTranscription := true, hasStart := true, hasEnd := true
    hasRater := false, hasWordClean := false, rows := [rawCat] }

/-- C8 witness: a prior output is returned as-is; a fresh pre-annotated
table is derived and written; a missing `start` column is an error. -/
theorem resolveInitialTable_contract_witness :
    resolveInitialTable (some [catRec]) preTable =
      Except.ok ([catRec], none) ∧
    (∃ out, resolveInitialTable none preTable = Except.ok (out, some out)) ∧
    (∃ c, resolveInitialTable none { preTable with hasStart := false } =
      Except.error (LoadError.missingColumn c)) := by
  have h1 := (resolveInitialTable_contract (some [catRec]) preTable).1
    [catRec] rfl
  have h2 := (resolveInitialTable_contract none preTable).2.2
    rfl rfl rfl rfl
  have h3 := (resolveInitialTable_contract none
    { preTable with hasStart := false }).2.1 rfl (by decide)
  obtain ⟨out, ho, -⟩ := h2
  obtain ⟨c, hce, -⟩ := h3
  exact ⟨h1, ⟨out, ho⟩, ⟨c, hce⟩⟩
